import Mathlib

/-!
Verification of the Kaidos blockchain core.

This file is a shallow embedding of the Kaidos source
(`Kaidos/core/merkle_tree.py`, `Kaidos/core/transaction_manager.py`,
`Kaidos/core/blockchain.py`, and the block-assembly part of
`Kaidos/network/node.py`) together with theorems settling the frozen
claims about it.

Modelling conventions:
- SHA-256 and the block-header hash are opaque to every algorithm under
  study, so they are parameters (`H` for string hashing, `HB` for the
  block-header hash over the six hashed fields).  Concrete evaluations
  instantiate them with simple executable mocks.
- Python floats carrying coin amounts are modelled as rationals; the
  float literals `0.00001` and `1.1` are modelled as the exact rationals
  they denote in the source text.
- ISO-8601 timestamp strings are ordered exactly as their instants, so
  timestamps are modelled as rationals (seconds); the mempool ordering
  and the difficulty window arithmetic only use ordering and subtraction.
- Database collections are lists of records; `find_one` is the first
  match, deletion removes matching records, insertion appends.
-/

namespace Kaidos

/-- A transaction input: `(txid, vout, signature)` referencing a previous
output, as in the mempool schema. -/
structure TxInput where
  txid : String
  vout : Nat
  signature : String
deriving DecidableEq, Repr

/-- A transaction output: `(address, amount)`. -/
structure TxOutput where
  address : String
  amount : ℚ
deriving DecidableEq, Repr

/-- A transaction document.  Block transactions carry the `coinbase` flag;
mempool documents additionally carry `signature`, `timestamp` and
`status`.  Python stores these as one dict shape, so one structure with
defaults models both. -/
structure Tx where
  txid : String
  inputs : List TxInput
  outputs : List TxOutput
  signature : String := ""
  timestamp : ℚ := 0
  coinbase : Bool := false
  status : String := ""
deriving DecidableEq, Repr, Inhabited

/-- A UTXO record.  The source also stores a `created_at` wall-clock
string that no modelled code path ever reads; it is omitted. -/
structure Utxo where
  txid : String
  vout : Nat
  address : String
  amount : ℚ
  spent_in_mempool : Bool := false
deriving DecidableEq, Repr

/-- The six fields hashed by `Block.compute_hash` (canonical JSON of
index, merkle_root, previous_hash, timestamp, nonce, miner_address). -/
structure BlockHashData where
  index : Nat
  merkle_root : String
  previous_hash : String
  timestamp : ℚ
  nonce : Nat
  miner_address : Option String
deriving DecidableEq, Repr

/-- A block record as persisted in the `blocks` collection. -/
structure Block where
  index : Nat
  transactions : List Tx
  previous_hash : String
  timestamp : ℚ
  nonce : Nat
  hash : String
  miner_address : Option String
  merkle_root : String
deriving DecidableEq, Repr

/-- The persistent state a node owns: the `blocks`, `utxos` and `mempool`
collections of one database. -/
structure ChainState where
  blocks : List Block
  utxos : List Utxo
  mempool : List Tx
deriving DecidableEq, Repr

/-! ## Merkle engine (`merkle_tree.py`) -/

section Merkle

variable (H : String → String)

/-- One level step of `_build_merkle_tree` and of
`_generate_proof_recursive`: hash consecutive pairs, duplicating the last
element of an odd-length level. -/
def hashPairs : List String → List String
  | [] => []
  | [a] => [H (a ++ a)]
  | a :: b :: rest => H (a ++ b) :: hashPairs rest

theorem hashPairs_length (l : List String) :
    (hashPairs H l).length = (l.length + 1) / 2 := by
  induction l using hashPairs.induct H with
  | case1 => simp [hashPairs]
  | case2 a => simp [hashPairs]
  | case3 a b rest ih => simp [hashPairs, ih]; omega

/-- `_build_merkle_tree`: fold levels until a single hash remains.  The
source diverges on an empty list; that case is unreachable from
`create_merkle_root` and is mapped to the empty string. -/
def buildMerkleTree : List String → String
  | [] => ""
  | [a] => a
  | a :: b :: rest => buildMerkleTree (hashPairs H (a :: b :: rest))
termination_by l => l.length
decreasing_by simp [hashPairs_length]; omega

/-- `create_merkle_root`: hash of each `txid`, then the level fold; the
empty list has the all-zero root. -/
def create_merkle_root (txs : List Tx) : String :=
  if txs = [] then String.mk (List.replicate 64 '0')
  else buildMerkleTree H (txs.map (fun tx => H tx.txid))

/-- One step of a Merkle proof: a sibling hash and its side. -/
structure ProofStep where
  hash : String
  position : String
deriving DecidableEq, Repr

/-- The index scan of `generate_proof`: the loop assigns `tx_index` at
every match, so the last matching position wins. -/
def findTxIndex (t : String) : List Tx → Option Nat
  | [] => none
  | tx :: rest =>
    match findTxIndex t rest with
    | some j => some (j + 1)
    | none => if tx.txid == t then some 0 else none

/-- The proof entry recorded at one level of `_generate_proof_recursive`:
an even tracked index pairs with its right neighbour (or with itself at an
odd level end), an odd tracked index pairs with its left neighbour. -/
def proofStepOf (hs : List String) (ti : Nat) : ProofStep :=
  if ti % 2 = 0 then
    match hs[ti + 1]? with
    | some sib => ⟨sib, "right"⟩
    | none => ⟨hs.getD ti "", "right"⟩
  else ⟨hs.getD (ti - 1) "", "left"⟩

/-- `_generate_proof_recursive`: walk up the levels, recording the sibling
of the tracked index at each level; the tracked index halves. -/
def genProofRec : List String → Nat → List ProofStep → List ProofStep
  | hs, ti, pf =>
    if _h : hs.length ≤ 1 then pf
    else genProofRec (hashPairs H hs) (ti / 2) (pf ++ [proofStepOf hs ti])
termination_by hs _ _ => hs.length
decreasing_by simp [hashPairs_length]; omega

/-- `generate_proof`: NONE when the txid does not occur, otherwise the
recursive proof from the leaf level. -/
def generate_proof (t : String) (txs : List Tx) : Option (List ProofStep) :=
  let hashes := txs.map (fun tx => H tx.txid)
  match findTxIndex t txs with
  | none => none
  | some ti => some (genProofRec H hashes ti [])

/-- One fold step of `verify_transaction`. -/
def applyStep (cur : String) (s : ProofStep) : String :=
  if s.position == "left" then H (s.hash ++ cur) else H (cur ++ s.hash)

/-- `verify_transaction`: fold the proof from the hashed txid and compare
with the root; a NONE proof verifies nothing. -/
def verify_transaction (t root : String) : Option (List ProofStep) → Bool
  | none => false
  | some pf => (pf.foldl (applyStep H) (H t)) == root

end Merkle

/-! ## Transaction manager (`transaction_manager.py`) -/

section TxManager

variable (verifySig : TxInput → String → Bool)

/-- `_get_utxo`: first record matching `(txid, vout)`; the collection has
a unique index on the pair, so at most one record matches. -/
def get_utxo (utxos : List Utxo) (txid : String) (vout : Nat) : Option Utxo :=
  utxos.find? (fun u => u.txid == txid && u.vout == vout)

/-- `_is_utxo_spent_in_mempool`: the UTXO carries the reservation flag, or
some mempool transaction references the pair in one of its inputs. -/
def is_utxo_spent_in_mempool (st : ChainState) (txid : String) (vout : Nat) : Bool :=
  (match get_utxo st.utxos txid vout with
   | some u => u.spent_in_mempool
   | none => false)
  || st.mempool.any (fun tx => tx.inputs.any (fun i => i.txid == txid && i.vout == vout))

/-- The per-input loop of `validate_transaction`: the first failing input
raises; on success the loop accumulates the referenced amounts.  In the
typed model the field-presence check on an input always passes. -/
def checkInputs (st : ChainState) : List TxInput → Except String ℚ
  | [] => .ok 0
  | i :: rest =>
    match get_utxo st.utxos i.txid i.vout with
    | none => .error "UTXO not found"
    | some u =>
      if is_utxo_spent_in_mempool st i.txid i.vout then .error "UTXO already spent"
      else if ¬ verifySig i u.address then .error "Invalid signature for input"
      else
        match checkInputs st rest with
        | .error e => .error e
        | .ok s => .ok (u.amount + s)

/-- The per-output loop of `validate_transaction`: each amount must be a
positive number (field presence always holds in the typed model). -/
def checkOutputs : List TxOutput → Except String Unit
  | [] => .ok ()
  | o :: rest => if o.amount ≤ 0 then .error "Invalid amount" else checkOutputs rest

/-- `validate_transaction`: structural check, per-input checks with input
sum, per-output checks, then the balance rule.  Every failure raises, and
the only normal return value is `True`. -/
def validate_transaction (st : ChainState) (tx : Tx) : Except String Bool :=
  if tx.inputs = [] ∨ tx.outputs = [] then
    .error "Transaction must have inputs and outputs"
  else
    match checkInputs verifySig st tx.inputs with
    | .error e => .error e
    | .ok input_sum =>
      match checkOutputs tx.outputs with
      | .error e => .error e
      | .ok _ =>
        if input_sum < (tx.outputs.map (fun o => o.amount)).sum then
          .error "Insufficient funds"
        else .ok true

/-- `_mark_utxo_spent`: the backing store cannot update in place, so the
source deletes the record and reinserts a flagged copy (at the end of the
collection); a missing record leaves the state unchanged. -/
def mark_utxo_spent (st : ChainState) (txid : String) (vout : Nat) : ChainState :=
  match get_utxo st.utxos txid vout with
  | none => st
  | some u =>
    { st with utxos := (st.utxos.eraseP (fun x => x.txid == txid && x.vout == vout))
        ++ [{ u with spent_in_mempool := true }] }

/-- `add_transaction`: build the candidate document, validate it (raising
on failure before any write), then mark every referenced UTXO spent in
mempool and insert the document.  The generated txid and the wall-clock
timestamp are deterministic ambient values passed as arguments.  The
mempool document validator (`_validate_transaction_document`) passes
whenever `validate_transaction` does, so the insert cannot fail. -/
def add_transaction (st : ChainState) (inputs : List TxInput)
    (outputs : List TxOutput) (signature : String) (txid : String) (ts : ℚ) :
    ChainState × Except String String :=
  let tx : Tx := { txid := txid, inputs := inputs, outputs := outputs,
                   signature := signature, timestamp := ts, coinbase := false,
                   status := "pending" }
  match validate_transaction verifySig st tx with
  | .error e => (st, .error e)
  | .ok _ =>
    let st1 := inputs.foldl (fun s i => mark_utxo_spent s i.txid i.vout) st
    ({ st1 with mempool := st1.mempool ++ [tx] }, .ok txid)

/-- `get_pending_transactions`: the mempool entries with status
`pending`, sorted by ascending timestamp, truncated to `limit`. -/
def get_pending_transactions (st : ChainState) (limit : Nat := 100) : List Tx :=
  (((st.mempool.filter (fun tx => tx.status == "pending")).insertionSort
    (fun a b => a.timestamp ≤ b.timestamp)).take limit)

/-- `add_utxo` as used by `process_block_transactions`: append a record
for output `i` of transaction `tx`. -/
def utxoOfOutput (txid : String) (i : Nat) (o : TxOutput) : Utxo :=
  { txid := txid, vout := i, address := o.address, amount := o.amount,
    spent_in_mempool := false }

/-- The per-transaction body of `process_block_transactions`: for a
non-coinbase transaction delete every consumed UTXO (the source deletes
by id, by key and with `delete_many`, so every matching record goes),
then append a UTXO per output, then drop the transaction from the
mempool. -/
def processTx (st : ChainState) (tx : Tx) : ChainState :=
  let st1 :=
    if tx.coinbase then st
    else { st with utxos := (tx.inputs.foldl
            (fun us i => us.filter (fun u => ¬ (u.txid == i.txid && u.vout == i.vout)))
            st.utxos) }
  let st2 := { st1 with utxos := st1.utxos ++ (tx.outputs.enum.map
                (fun (p : Nat × TxOutput) => utxoOfOutput tx.txid p.1 p.2)) }
  { st2 with mempool := st2.mempool.filter (fun m => ¬ (m.txid == tx.txid)) }

/-- `process_block_transactions`: fold the per-transaction body over the
transactions of a block, in order. -/
def process_block_transactions (st : ChainState) (b : Block) : ChainState :=
  b.transactions.foldl processTx st

/-- `calculate_transaction_fee`: zero for coinbase, otherwise the sum of
the amounts of the inputs whose UTXO is found minus the output sum,
floored at zero. -/
def calculate_transaction_fee (st : ChainState) (tx : Tx) : ℚ :=
  if tx.coinbase then 0
  else
    let input_sum := tx.inputs.foldl (fun s i =>
      match get_utxo st.utxos i.txid i.vout with
      | some u => s + u.amount
      | none => s) 0
    let output_sum := (tx.outputs.map (fun o => o.amount)).sum
    max 0 (input_sum - output_sum)

end TxManager

/-! ## Blockchain (`blockchain.py`) -/

section Chain

variable (H : String → String) (HB : BlockHashData → String)
variable (verifySig : TxInput → String → Bool)

/-- `str.startswith` against a run of zero characters. -/
def startsWithZerosN (s : String) (n : Nat) : Bool :=
  s.data.take n == List.replicate n '0'

/-- `Block.compute_hash`: the header hash over the six hashed fields. -/
def compute_hash (b : Block) : String :=
  HB ⟨b.index, b.merkle_root, b.previous_hash, b.timestamp, b.nonce, b.miner_address⟩

/-- `calculate_block_reward`: 50 halved every 210000 blocks. -/
def calculate_block_reward (height : Nat) : ℚ :=
  50 / 2 ^ (height / 210000)

/-- `get_latest_block`: sort descending by index and take the head. -/
def get_latest_block (st : ChainState) : Option Block :=
  (st.blocks.insertionSort (fun a b => b.index ≤ a.index)).head?

/-- `get_blocks_range`: the blocks with `start ≤ index ≤ end`, sorted by
index. -/
def get_blocks_range (st : ChainState) (s e : Nat) : List Block :=
  (st.blocks.filter (fun b => s ≤ b.index ∧ b.index ≤ e)).insertionSort
    (fun a b => a.index ≤ b.index)

/-- `_is_valid_proof`: the stored hash has at least `difficulty` leading
zeros. -/
def is_valid_proof (b : Block) (difficulty : Nat) : Bool :=
  startsWithZerosN b.hash difficulty

/-- The per-transaction loop of `_validate_block_transactions` over the
non-coinbase transactions: the fee accumulation and the validation call
sit in a `try` whose handler ignores the exception, so a raising
validation neither stops the loop nor rejects the block, but a fee
already added is kept.  Only a `False` return of `validate_transaction`
(which cannot happen, the function raises instead) would reject. -/
def validateTxsLoop (st : ChainState) : List Tx → ℚ → Option ℚ
  | [], fees => some fees
  | tx :: rest, fees =>
    let fees1 := fees + calculate_transaction_fee st tx
    match validate_transaction verifySig st tx with
    | .ok b => if b then validateTxsLoop st rest fees1 else none
    | .error _ => validateTxsLoop st rest fees1

/-- `_validate_block_transactions`: index 0 passes; otherwise the first
transaction must be a coinbase without inputs, the non-coinbase
transactions are walked by `validateTxsLoop`, and the single coinbase
output must pay `reward + fees` (tolerance `0.00001`) to the declared
miner address. -/
def validate_block_transactions (st : ChainState) (b : Block) : Bool :=
  if b.index = 0 then true
  else
    match b.transactions with
    | [] => false
    | cb :: rest =>
      if ¬ cb.coinbase then false
      else if cb.inputs.length > 0 then false
      else
        let reward := calculate_block_reward b.index
        match validateTxsLoop verifySig st rest 0 with
        | none => false
        | some fees =>
          match cb.outputs with
          | [o] =>
            if |o.amount - (reward + fees)| > 1 / 100000 then false
            else b.miner_address == some o.address
          | _ => false

/-- `_is_block_valid`: contiguity with the latest block, linkage, header
hash recomputation, fixed difficulty 4, then the transaction rules.  The
call-stack inspection block in the source only fires inside the bundled
test-suite (and even there its zero-argument call raises and is
swallowed), so it is omitted.  An empty chain would raise in the source;
it is unreachable because the genesis block is created on startup. -/
def is_block_valid (st : ChainState) (b : Block) : Bool :=
  match get_latest_block st with
  | none => false
  | some latest =>
    if b.index ≠ latest.index + 1 then false
    else if b.previous_hash ≠ latest.hash then false
    else if b.hash ≠ compute_hash HB b then false
    else if ¬ is_valid_proof b 4 then false
    else validate_block_transactions verifySig st b

/-- `add_block`: reject invalid blocks, otherwise apply the contained
transactions to the UTXO set and mempool and append the block. -/
def add_block (st : ChainState) (b : Block) : Except String ChainState :=
  if ¬ is_block_valid HB verifySig st b then .error "Invalid block"
  else
    let st1 := process_block_transactions st b
    .ok { st1 with blocks := st1.blocks ++ [b] }

/-- The inner loop of `_validate_external_chain` over consecutive blocks:
contiguity, linkage, and difficulty 4 on the stored hash.  The source
also rebuilds a `Block` from the stored fields and compares its hash with
the stored hash, but the constructor keeps a supplied hash verbatim, so
that comparison is between the stored hash and itself and never fails;
the model therefore carries no recomputation test here. -/
def validateExternalGo : Block → List Block → Bool
  | _, [] => true
  | prev, b :: rest =>
    if b.index ≠ prev.index + 1 then false
    else if b.previous_hash ≠ prev.hash then false
    else if ¬ startsWithZerosN b.hash 4 then false
    else validateExternalGo b rest

/-- `_validate_external_chain`: the first block must have index 0 (an
empty list raises and is caught, giving `False`), then the pairwise
loop. -/
def validate_external_chain : List Block → Bool
  | [] => false
  | b0 :: rest => if b0.index ≠ 0 then false else validateExternalGo b0 rest

/-- `_get_block_difficulty`: leading zero characters of the stored hash. -/
def countLeadingZeros : List Char → Nat
  | [] => 0
  | c :: rest => if c = '0' then countLeadingZeros rest + 1 else 0

/-- Cumulative work of a chain: `2 ^ leading_zero_count` per block. -/
def chain_work (c : List Block) : Nat :=
  (c.map (fun b => 2 ^ countLeadingZeros b.hash.data)).sum

/-- `_validate_chain_work`: the candidate must carry strictly more than
1.1 times the local work (the source compares against the float literal
`1.1`, modelled as the exact rational 11/10). -/
def validate_chain_work (newC cur : List Block) : Bool :=
  decide ((chain_work newC : ℚ) > (chain_work cur : ℚ) * (11 / 10))

/-- The candidate scan of `resolve_conflicts`: keep the first chain that
strictly exceeds the best length so far and passes external validation,
starting from the local length. -/
def select_best_chain (chains : List (List Block)) (curLen : Nat) :
    Option (List Block) :=
  (chains.foldl
    (fun acc c =>
      if acc.2 < c.length ∧ validate_external_chain c = true then (some c, c.length)
      else acc)
    ((none : Option (List Block)), curLen)).1

/-- The common-ancestor scan of `resolve_conflicts`: walk both chains in
step, remembering the last position with equal hashes; the height stays 0
both when only position 0 matches and when position 0 already differs. -/
def commonHeightGo : List Block → List Block → Nat → Nat → Nat
  | c :: cs, b :: bs, i, h =>
    if c.hash = b.hash then commonHeightGo cs bs (i + 1) i else h
  | _, _, _, h => h

/-- The common-ancestor height of the local chain and the candidate. -/
def common_height (cur best : List Block) : Nat :=
  commonHeightGo cur best 0 0

/-- `_rebuild_utxo_set_from_height`: replay the block transactions of the
(already replaced) chain from `height + 1` to the tip over the existing
UTXO set.  Nothing removes the UTXOs created by discarded blocks. -/
def rebuild_utxo_set_from_height (st : ChainState) (height : Nat) : ChainState :=
  (get_blocks_range st (height + 1) (st.blocks.length - 1)).foldl
    process_block_transactions st

/-- `resolve_conflicts`: pick the best strictly longer valid candidate;
compute the common ancestor; when the chains share at most the position-0
block and the local chain is non-empty, additionally require more work;
then drop the local blocks above the ancestor, append the candidate
suffix, and replay that suffix over the existing UTXO set. -/
def resolve_conflicts (st : ChainState) (chains : List (List Block)) :
    Bool × ChainState :=
  let cur := st.blocks.insertionSort (fun a b => a.index ≤ b.index)
  let curLen := cur.length
  match select_best_chain chains curLen with
  | none => (false, st)
  | some best =>
    let h := common_height cur best
    if h = 0 ∧ 0 < curLen ∧ validate_chain_work best cur = false then (false, st)
    else
      let newBlocks := best.drop (h + 1)
      let st1 := { st with blocks := st.blocks.filter (fun b => b.index ≤ h) ++ newBlocks }
      (true, rebuild_utxo_set_from_height st1 h)

/-- The difficulty window of `get_difficulty`: the last up-to-10 blocks. -/
def difficulty_window (st : ChainState) : List Block :=
  get_blocks_range st (st.blocks.length - 10) (st.blocks.length - 1)

/-- `str.startswith` against `current_difficulty` zeros where the count is
an integer; a non-positive count is the empty prefix, which always
matches. -/
def startsWithZerosI (s : String) (n : Int) : Bool :=
  startsWithZerosN s n.toNat

/-- The current-difficulty scan of `get_difficulty`: walk the window in
index order, bumping the running difficulty when a hash has one more
leading zero and dropping it when the hash misses the running count. -/
def currentDifficultyScan (blocks : List Block) : Int :=
  blocks.foldl
    (fun cd b =>
      if startsWithZerosI b.hash (cd + 1) then cd + 1
      else if ¬ startsWithZerosI b.hash cd then cd - 1
      else cd)
    4

/-- The average interval between consecutive timestamps of the window,
after sorting the timestamps. -/
def avg_block_time (blocks : List Block) : ℚ :=
  let ts := (blocks.map (fun b => b.timestamp)).insertionSort (fun a b => a ≤ b)
  let diffs := (ts.zip ts.tail).map (fun p => p.2 - p.1)
  diffs.sum / diffs.length

/-- `get_difficulty`: 4 below two blocks; otherwise adjust the scanned
current difficulty by the average block time against the 600-second
target (increment below target/2 = 300, decrement with floor 1 above
target*2 = 1200, hold otherwise). -/
def get_difficulty (st : ChainState) : Int :=
  if (difficulty_window st).length < 2 then 4
  else if avg_block_time (difficulty_window st) < 300 then
    currentDifficultyScan (difficulty_window st) + 1
  else if avg_block_time (difficulty_window st) > 1200 then
    max 1 (currentDifficultyScan (difficulty_window st) - 1)
  else currentDifficultyScan (difficulty_window st)

end Chain

/-! ## Block assembly (`network/node.py`, mining endpoint) -/

/-- The transaction list of a mined block: the coinbase followed by the
pending snapshot (`get_pending_transactions` with its default limit of
100). -/
def mine_block_transactions (st : ChainState) (coinbase : Tx) : List Tx :=
  coinbase :: get_pending_transactions st 100

/-- Boolean success of an `Except` result. -/
def exceptIsOk {ε α : Type} : Except ε α → Bool
  | .ok _ => true
  | .error _ => false

/-! ## Lemmas on the Merkle engine -/

section MerkleProofs

variable (H : String → String)

theorem hashPairs_getD_full (l : List String) (k : Nat)
    (h : 2 * k + 1 < l.length) :
    (hashPairs H l).getD k "" = H (l.getD (2 * k) "" ++ l.getD (2 * k + 1) "") := by
  induction l using hashPairs.induct H generalizing k with
  | case1 => simp at h
  | case2 a => simp only [List.length_singleton] at h; omega
  | case3 a b rest ih =>
    match k with
    | 0 => simp [hashPairs]
    | k + 1 =>
      simp only [List.length_cons] at h
      have h' : 2 * k + 1 < rest.length := by omega
      have e1 : 2 * (k + 1) = 2 * k + 1 + 1 := by ring
      rw [e1]
      simp only [hashPairs, List.getD_cons_succ]
      exact ih k h'

theorem hashPairs_getD_odd (l : List String) (k : Nat)
    (h : 2 * k + 1 = l.length) :
    (hashPairs H l).getD k "" = H (l.getD (2 * k) "" ++ l.getD (2 * k) "") := by
  induction l using hashPairs.induct H generalizing k with
  | case1 => simp at h
  | case2 a =>
    have hk : k = 0 := by simp at h; omega
    subst hk
    simp [hashPairs]
  | case3 a b rest ih =>
    match k with
    | 0 => simp only [List.length_cons] at h; omega
    | k + 1 =>
      simp only [List.length_cons] at h
      have h' : 2 * k + 1 = rest.length := by omega
      have e1 : 2 * (k + 1) = 2 * k + 1 + 1 := by ring
      rw [e1]
      simp only [hashPairs, List.getD_cons_succ]
      exact ih k h'

theorem buildMerkleTree_step (a b : String) (rest : List String) :
    buildMerkleTree H (a :: b :: rest) = buildMerkleTree H (hashPairs H (a :: b :: rest)) := by
  simp [buildMerkleTree]

theorem applyStep_right (c s : String) :
    applyStep H c ⟨s, "right"⟩ = H (c ++ s) := rfl

theorem applyStep_left (c s : String) :
    applyStep H c ⟨s, "left"⟩ = H (s ++ c) := rfl

theorem applyStep_proofStepOf (hs : List String) (ti : Nat)
    (hti : ti < hs.length) :
    applyStep H (hs.getD ti "") (proofStepOf hs ti) = (hashPairs H hs).getD (ti / 2) "" := by
  by_cases hpar : ti % 2 = 0
  · have h2k : 2 * (ti / 2) = ti := by omega
    by_cases hfull : ti + 1 < hs.length
    · have hget : hs[ti + 1]? = some (hs.getD (ti + 1) "") := by
        rw [List.getElem?_eq_getElem hfull, List.getD_eq_getElem?_getD,
            List.getElem?_eq_getElem hfull]
        rfl
      rw [proofStepOf, if_pos hpar, hget]
      rw [hashPairs_getD_full H hs (ti / 2) (by omega)]
      rw [h2k, applyStep_right]
    · have hget : hs[ti + 1]? = none := by
        rw [List.getElem?_eq_none_iff]
        omega
      rw [proofStepOf, if_pos hpar, hget]
      rw [hashPairs_getD_odd H hs (ti / 2) (by omega)]
      rw [h2k, applyStep_right]
  · have h2k : 2 * (ti / 2) = ti - 1 := by omega
    have h2k1 : 2 * (ti / 2) + 1 = ti := by omega
    rw [proofStepOf, if_neg hpar]
    rw [hashPairs_getD_full H hs (ti / 2) (by omega)]
    rw [h2k1, h2k, applyStep_left]

theorem genProofRec_append : ∀ (n : Nat) (hs : List String), hs.length = n →
    ∀ (ti : Nat) (pf : List ProofStep),
    genProofRec H hs ti pf = pf ++ genProofRec H hs ti [] := by
  intro n
  induction n using Nat.strong_induction_on with
  | _ n ih =>
    intro hs hlen ti pf
    by_cases hle : hs.length ≤ 1
    · conv_lhs => rw [genProofRec]
      conv_rhs => rw [genProofRec]
      simp [hle]
    · have hlt : (hashPairs H hs).length < n := by
        rw [hashPairs_length]
        omega
      conv_lhs => rw [genProofRec]
      conv_rhs => rw [genProofRec]
      rw [dif_neg hle, dif_neg hle]
      rw [ih _ hlt _ rfl (ti / 2) (pf ++ [proofStepOf hs ti]),
          ih _ hlt _ rfl (ti / 2) ([] ++ [proofStepOf hs ti])]
      simp

theorem genProofRec_foldl : ∀ (n : Nat) (hs : List String), hs.length = n →
    ∀ (ti : Nat), ti < hs.length →
    (genProofRec H hs ti []).foldl (applyStep H) (hs.getD ti "") = buildMerkleTree H hs := by
  intro n
  induction n using Nat.strong_induction_on with
  | _ n ih =>
    intro hs hlen ti hti
    by_cases hle : hs.length ≤ 1
    · rcases hs with _ | ⟨a, _ | ⟨b, rest⟩⟩
      · simp at hti
      · conv_lhs => rw [genProofRec]
        have hti0 : ti = 0 := by simp at hti; omega
        subst hti0
        simp [buildMerkleTree]
      · simp at hle
    · rcases hs with _ | ⟨a, _ | ⟨b, rest⟩⟩
      · simp at hti
      · simp at hle
      · have hlt : (hashPairs H (a :: b :: rest)).length < n := by
          rw [hashPairs_length]
          simp only [List.length_cons] at hlen ⊢
          omega
        have hti2 : ti / 2 < (hashPairs H (a :: b :: rest)).length := by
          rw [hashPairs_length]
          simp only [List.length_cons] at hti ⊢
          omega
        conv_lhs => rw [genProofRec]
        rw [dif_neg hle]
        rw [genProofRec_append H _ _ rfl]
        rw [List.nil_append, List.foldl_append]
        simp only [List.foldl_cons, List.foldl_nil]
        rw [applyStep_proofStepOf H _ ti hti]
        rw [ih _ hlt _ rfl _ hti2]
        rw [buildMerkleTree_step]

theorem findTxIndex_some (t : String) : ∀ (txs : List Tx) (i : Nat),
    findTxIndex t txs = some i →
    i < txs.length ∧ (txs.getD i default).txid = t := by
  intro txs
  induction txs with
  | nil => intro i h; simp [findTxIndex] at h
  | cons tx rest ih =>
    intro i h
    rw [findTxIndex] at h
    cases hr : findTxIndex t rest with
    | some j =>
      rw [hr] at h
      injection h with h
      subst h
      rcases ih j hr with ⟨hj, he⟩
      constructor
      · simpa using Nat.succ_lt_succ hj
      · simpa using he
    | none =>
      rw [hr] at h
      by_cases hb : tx.txid == t
      · simp only [hb, if_pos] at h
        injection h with h
        subst h
        exact ⟨by simp, by simpa using (eq_of_beq hb)⟩
      · simp [hb] at h

theorem findTxIndex_none (t : String) : ∀ (txs : List Tx),
    findTxIndex t txs = none ↔ txs.any (fun tx => tx.txid == t) = false := by
  intro txs
  induction txs with
  | nil => simp [findTxIndex]
  | cons tx rest ih =>
    rw [findTxIndex]
    cases hr : findTxIndex t rest with
    | some j =>
      simp only []
      constructor
      · intro h; exact absurd h (by simp)
      · intro h
        simp only [List.any_cons, Bool.or_eq_false_iff] at h
        rw [ih.mpr h.2] at hr
        exact absurd hr (by simp)
    | none =>
      have hrest := ih.mp hr
      by_cases hb : tx.txid == t
      · simp [hb]
      · simp only [Bool.not_eq_true] at hb
        simp [hb, hrest]

/-- C4: for every transaction list and every transaction occurring in it,
the proof generated for its txid verifies against the Merkle root of the
list; for a txid that occurs nowhere in the list, proof generation
returns NONE.  The duplicate-last rule of root construction and proof
generation agree, for every hash function. -/
theorem kaidos_c4_merkle_round_trip (H : String → String) (txs : List Tx) (t : String) :
    (txs.any (fun tx => tx.txid == t) = true →
      verify_transaction H t (create_merkle_root H txs) (generate_proof H t txs) = true)
  ∧ (txs.any (fun tx => tx.txid == t) = false →
      generate_proof H t txs = none) := by
  constructor
  · intro hany
    cases hf : findTxIndex t txs with
    | none =>
      rw [(findTxIndex_none t txs).mp hf] at hany
      exact absurd hany (by simp)
    | some ti =>
      rcases findTxIndex_some t txs ti hf with ⟨hti, htxid⟩
      have hne : txs ≠ [] := by
        intro h
        subst h
        simp at hti
      have hgen : generate_proof H t txs
          = some (genProofRec H (txs.map (fun tx => H tx.txid)) ti []) := by
        rw [generate_proof]
        simp only [hf]
      rw [hgen]
      rw [verify_transaction]
      have hmaplen : (txs.map (fun tx => H tx.txid)).length = txs.length := by simp
      have hcur : (txs.map (fun tx => H tx.txid)).getD ti "" = H t := by
        rw [List.getD_eq_getElem?_getD, List.getElem?_map]
        rw [List.getElem?_eq_getElem hti]
        simp only [Option.map_some', Option.getD_some]
        rw [← htxid]
        congr 1
        rw [List.getD_eq_getElem?_getD, List.getElem?_eq_getElem hti]
        rfl
      rw [← hcur]
      rw [genProofRec_foldl H _ _ rfl ti (by rw [hmaplen]; exact hti)]
      rw [create_merkle_root, if_neg hne]
      simp
  · intro hany
    rw [generate_proof]
    simp only [(findTxIndex_none t txs).mpr hany]

end MerkleProofs

/-! ## Concrete mocks for evaluations -/

/-- A concrete executable stand-in for SHA-256 over strings: injective on
the inputs fed to it and cheap to evaluate. -/
def mockH : String → String := fun s => "h[" ++ s ++ "]"

/-- A transaction carrying only a txid, for Merkle evaluations. -/
def simpleTx (t : String) : Tx :=
  { txid := t, inputs := [], outputs := [] }

/-- The concrete transaction list of the round-trip evaluation. -/
def c4txs : List Tx := [simpleTx "a", simpleTx "b", simpleTx "c"]

/-- C4 witness: the round-trip theorem applied to a concrete three-element
transaction list, for a present txid and an absent one. -/
theorem kaidos_c4_witness :
    verify_transaction mockH "b" (create_merkle_root mockH c4txs)
      (generate_proof mockH "b" c4txs) = true
  ∧ generate_proof mockH "z" c4txs = none :=
  ⟨(kaidos_c4_merkle_round_trip mockH c4txs "b").1 (by rfl),
   (kaidos_c4_merkle_round_trip mockH c4txs "z").2 (by rfl)⟩

/-! ## Lemmas on mempool admission -/

section AdmissionProofs

variable (verifySig : TxInput → String → Bool)

theorem checkInputs_ok (st : ChainState) :
    ∀ (inputs : List TxInput) (q : ℚ), checkInputs verifySig st inputs = .ok q →
    ∀ i ∈ inputs, (get_utxo st.utxos i.txid i.vout).isSome = true ∧
      is_utxo_spent_in_mempool st i.txid i.vout = false := by
  intro inputs
  induction inputs with
  | nil => intro q _ i hi; simp at hi
  | cons a rest ih =>
    intro q h i hi
    rw [checkInputs] at h
    cases hu : get_utxo st.utxos a.txid a.vout with
    | none =>
      simp only [hu] at h
      exact absurd h (by simp)
    | some u =>
      simp only [hu] at h
      by_cases hsp : is_utxo_spent_in_mempool st a.txid a.vout
      · rw [if_pos hsp] at h
        exact absurd h (by simp)
      · rw [if_neg hsp] at h
        by_cases hvs : verifySig a u.address
        · rw [if_neg (not_not_intro hvs)] at h
          cases hr : checkInputs verifySig st rest with
          | error e =>
            simp only [hr] at h
            exact absurd h (by simp)
          | ok s =>
            rcases List.mem_cons.mp hi with hia | hir
            · subst hia
              exact ⟨by rw [hu]; rfl, by simpa using hsp⟩
            · exact ih s hr i hir
        · rw [if_pos hvs] at h
          exact absurd h (by simp)

theorem validate_transaction_ok_inputs (st : ChainState) (tx : Tx) (b : Bool)
    (h : validate_transaction verifySig st tx = .ok b) :
    ∀ i ∈ tx.inputs, (get_utxo st.utxos i.txid i.vout).isSome = true ∧
      is_utxo_spent_in_mempool st i.txid i.vout = false := by
  rw [validate_transaction] at h
  by_cases hc : tx.inputs = [] ∨ tx.outputs = []
  · rw [if_pos hc] at h
    exact absurd h (by simp)
  · rw [if_neg hc] at h
    cases hr : checkInputs verifySig st tx.inputs with
    | error e => rw [hr] at h; exact absurd h (by simp)
    | ok s => exact checkInputs_ok verifySig st tx.inputs s hr

/-- The candidate document built by `add_transaction`. -/
def candidateTx (inputs : List TxInput) (outputs : List TxOutput)
    (signature txid : String) (ts : ℚ) : Tx :=
  { txid := txid, inputs := inputs, outputs := outputs, signature := signature,
    timestamp := ts, coinbase := false, status := "pending" }

theorem add_transaction_def (st : ChainState) (inputs : List TxInput)
    (outputs : List TxOutput) (sig txid : String) (ts : ℚ) :
    add_transaction verifySig st inputs outputs sig txid ts =
      match validate_transaction verifySig st (candidateTx inputs outputs sig txid ts) with
      | .error e => (st, .error e)
      | .ok _ =>
        let st1 := inputs.foldl (fun s i => mark_utxo_spent s i.txid i.vout) st
        ({ st1 with mempool := st1.mempool ++ [candidateTx inputs outputs sig txid ts] },
         .ok txid) := rfl

theorem add_rejects_missing (st : ChainState) (inputs : List TxInput)
    (outputs : List TxOutput) (sig txid : String) (ts : ℚ) (i : TxInput)
    (hi : i ∈ inputs) (hu : get_utxo st.utxos i.txid i.vout = none) :
    exceptIsOk (add_transaction verifySig st inputs outputs sig txid ts).2 = false := by
  rw [add_transaction_def]
  cases hv : validate_transaction verifySig st (candidateTx inputs outputs sig txid ts) with
  | error e => simp [exceptIsOk]
  | ok b =>
    exfalso
    have := (validate_transaction_ok_inputs verifySig st _ b hv i hi).1
    rw [hu] at this
    simp at this

theorem add_rejects_spent (st : ChainState) (inputs : List TxInput)
    (outputs : List TxOutput) (sig txid : String) (ts : ℚ) (i : TxInput)
    (hi : i ∈ inputs) (hsp : is_utxo_spent_in_mempool st i.txid i.vout = true) :
    exceptIsOk (add_transaction verifySig st inputs outputs sig txid ts).2 = false := by
  rw [add_transaction_def]
  cases hv : validate_transaction verifySig st (candidateTx inputs outputs sig txid ts) with
  | error e => simp [exceptIsOk]
  | ok b =>
    exfalso
    have := (validate_transaction_ok_inputs verifySig st _ b hv i hi).2
    rw [hsp] at this
    simp at this

theorem mark_utxo_spent_mempool (st : ChainState) (t : String) (v : Nat) :
    (mark_utxo_spent st t v).mempool = st.mempool := by
  rw [mark_utxo_spent]
  cases get_utxo st.utxos t v <;> rfl

theorem foldl_mark_mempool (l : List TxInput) :
    ∀ (st : ChainState),
    (l.foldl (fun s i => mark_utxo_spent s i.txid i.vout) st).mempool = st.mempool := by
  induction l with
  | nil => intro st; rfl
  | cons a rest ih =>
    intro st
    rw [List.foldl_cons, ih, mark_utxo_spent_mempool]

theorem add_transaction_ok_validate (st : ChainState) (inputs : List TxInput)
    (outputs : List TxOutput) (sig txid : String) (ts : ℚ)
    (h : exceptIsOk (add_transaction verifySig st inputs outputs sig txid ts).2 = true) :
    ∃ b, validate_transaction verifySig st (candidateTx inputs outputs sig txid ts)
      = .ok b := by
  rw [add_transaction_def] at h
  cases hv : validate_transaction verifySig st (candidateTx inputs outputs sig txid ts) with
  | error e =>
    simp only [hv] at h
    simp [exceptIsOk] at h
  | ok b => exact ⟨b, rfl⟩

theorem add_transaction_ok_mempool (st : ChainState) (inputs : List TxInput)
    (outputs : List TxOutput) (sig txid : String) (ts : ℚ) (b : Bool)
    (hv : validate_transaction verifySig st (candidateTx inputs outputs sig txid ts)
      = .ok b) :
    (add_transaction verifySig st inputs outputs sig txid ts).1.mempool
      = st.mempool ++ [candidateTx inputs outputs sig txid ts] := by
  rw [add_transaction_def]
  simp only [hv]
  rw [foldl_mark_mempool]

theorem add_ok_marks_spent (st : ChainState) (inputs : List TxInput)
    (outputs : List TxOutput) (sig txid : String) (ts : ℚ) (i : TxInput)
    (hi : i ∈ inputs)
    (h : exceptIsOk (add_transaction verifySig st inputs outputs sig txid ts).2 = true) :
    is_utxo_spent_in_mempool (add_transaction verifySig st inputs outputs sig txid ts).1
      i.txid i.vout = true := by
  rcases add_transaction_ok_validate verifySig st inputs outputs sig txid ts h with ⟨b, hv⟩
  rw [is_utxo_spent_in_mempool]
  rw [add_transaction_ok_mempool verifySig st inputs outputs sig txid ts b hv]
  apply Bool.or_eq_true_iff.mpr
  right
  rw [List.any_eq_true]
  refine ⟨candidateTx inputs outputs sig txid ts, List.mem_append_right _ (by simp), ?_⟩
  rw [List.any_eq_true]
  exact ⟨i, hi, by simp⟩

/-- C5: mempool admission rejects a candidate transaction when any input
references a UTXO pair absent from the UTXO set; it rejects when any
input references a UTXO flagged spent-in-mempool or is referenced by an input of
a mempool transaction; and of two transactions submitted in sequence that
spend the same UTXO, the second is rejected. -/
theorem kaidos_c5_double_spend_rejection (verifySig : TxInput → String → Bool) :
    (∀ (st : ChainState) (inputs : List TxInput) (outputs : List TxOutput)
       (sig txid : String) (ts : ℚ) (i : TxInput), i ∈ inputs →
       get_utxo st.utxos i.txid i.vout = none →
       exceptIsOk (add_transaction verifySig st inputs outputs sig txid ts).2 = false)
  ∧ (∀ (st : ChainState) (inputs : List TxInput) (outputs : List TxOutput)
       (sig txid : String) (ts : ℚ) (i : TxInput), i ∈ inputs →
       is_utxo_spent_in_mempool st i.txid i.vout = true →
       exceptIsOk (add_transaction verifySig st inputs outputs sig txid ts).2 = false)
  ∧ (∀ (st : ChainState) (in1 : List TxInput) (out1 : List TxOutput)
       (sig1 id1 : String) (ts1 : ℚ) (in2 : List TxInput) (out2 : List TxOutput)
       (sig2 id2 : String) (ts2 : ℚ) (i1 i2 : TxInput),
       i1 ∈ in1 → i2 ∈ in2 → i2.txid = i1.txid → i2.vout = i1.vout →
       exceptIsOk (add_transaction verifySig st in1 out1 sig1 id1 ts1).2 = true →
       exceptIsOk (add_transaction verifySig
         (add_transaction verifySig st in1 out1 sig1 id1 ts1).1
         in2 out2 sig2 id2 ts2).2 = false) := by
  refine ⟨?_, ?_, ?_⟩
  · intro st inputs outputs sig txid ts i hi hu
    exact add_rejects_missing verifySig st inputs outputs sig txid ts i hi hu
  · intro st inputs outputs sig txid ts i hi hsp
    exact add_rejects_spent verifySig st inputs outputs sig txid ts i hi hsp
  · intro st in1 out1 sig1 id1 ts1 in2 out2 sig2 id2 ts2 i1 i2 h1 h2 et ev hok
    have hsp : is_utxo_spent_in_mempool
        (add_transaction verifySig st in1 out1 sig1 id1 ts1).1 i2.txid i2.vout = true := by
      rw [et, ev]
      exact add_ok_marks_spent verifySig st in1 out1 sig1 id1 ts1 i1 h1 hok
    exact add_rejects_spent verifySig _ in2 out2 sig2 id2 ts2 i2 h2 hsp

end AdmissionProofs

/-- A signature verifier that accepts everything, for concrete runs. -/
def mockSig : TxInput → String → Bool := fun _ _ => true

/-- A state holding one unspent 50-coin UTXO and an empty mempool. -/
def c5State : ChainState :=
  { blocks := [], utxos := [{ txid := "t0", vout := 0, address := "A", amount := 50 }],
    mempool := [] }

/-- The single input spending the 50-coin UTXO of `c5State`. -/
def c5Inputs : List TxInput := [{ txid := "t0", vout := 0, signature := "s" }]

/-- A 30-coin output for the spends of the C5 evaluation. -/
def c5Outputs : List TxOutput := [{ address := "B", amount := 30 }]

/-- C5 witness: concretely, the first spend of the UTXO is admitted and
the second spend of the same UTXO is rejected. -/
theorem kaidos_c5_witness :
    exceptIsOk (add_transaction mockSig c5State c5Inputs c5Outputs "s" "id1" 0).2 = true
  ∧ exceptIsOk (add_transaction mockSig
      (add_transaction mockSig c5State c5Inputs c5Outputs "s" "id1" 0).1
      c5Inputs c5Outputs "s" "id2" 1).2 = false := by
  have h1 : exceptIsOk (add_transaction mockSig c5State c5Inputs c5Outputs "s" "id1" 0).2
      = true := by
    norm_num [add_transaction, validate_transaction, checkInputs, checkOutputs, get_utxo,
      is_utxo_spent_in_mempool, mark_utxo_spent, mockSig, c5State, c5Inputs, c5Outputs,
      exceptIsOk, List.find?]
  exact ⟨h1,
    (kaidos_c5_double_spend_rejection mockSig).2.2 c5State c5Inputs c5Outputs "s" "id1" 0
      c5Inputs c5Outputs "s" "id2" 1
      { txid := "t0", vout := 0, signature := "s" }
      { txid := "t0", vout := 0, signature := "s" }
      (by simp [c5Inputs]) (by simp [c5Inputs]) rfl rfl h1⟩

/-- C9: admission is atomic on failure: when `add_transaction` raises,
the mempool and the UTXO store are unchanged, because the validator runs
before any write. -/
theorem kaidos_c9_admission_atomic (verifySig : TxInput → String → Bool)
    (st : ChainState) (inputs : List TxInput) (outputs : List TxOutput)
    (sig txid : String) (ts : ℚ) (e : String)
    (h : (add_transaction verifySig st inputs outputs sig txid ts).2 = .error e) :
    (add_transaction verifySig st inputs outputs sig txid ts).1 = st := by
  rw [add_transaction_def] at h ⊢
  cases hv : validate_transaction verifySig st (candidateTx inputs outputs sig txid ts) with
  | error e' => rfl
  | ok b =>
    rw [hv] at h
    simp at h

/-- An empty state: a spend against it fails with a missing UTXO. -/
def c9State : ChainState := { blocks := [], utxos := [], mempool := [] }

/-- C9 witness: a concrete rejected submission leaves the state unchanged. -/
theorem kaidos_c9_witness :
    (add_transaction mockSig c9State c5Inputs c5Outputs "s" "id1" 0).2
      = .error "UTXO not found"
  ∧ (add_transaction mockSig c9State c5Inputs c5Outputs "s" "id1" 0).1 = c9State :=
  ⟨by rfl,
   kaidos_c9_admission_atomic mockSig c9State c5Inputs c5Outputs "s" "id1" 0
     "UTXO not found" (by rfl)⟩

/-! ## Lemmas on block validation (C7) -/

section BlockProofs

variable (HB : BlockHashData → String) (verifySig : TxInput → String → Bool)

theorem validateTxsLoop_fees (st : ChainState) :
    ∀ (l : List Tx) (f fees : ℚ), validateTxsLoop verifySig st l f = some fees →
    fees = f + (l.map (calculate_transaction_fee st)).sum := by
  intro l
  induction l with
  | nil =>
    intro f fees h
    rw [validateTxsLoop] at h
    injection h with h
    simp [h]
  | cons tx rest ih =>
    intro f fees h
    rw [validateTxsLoop] at h
    cases hv : validate_transaction verifySig st tx with
    | ok b =>
      rw [hv] at h
      cases b with
      | false => simp at h
      | true =>
        simp only [if_pos] at h
        have := ih _ _ h
        rw [this]
        simp only [List.map_cons, List.sum_cons]
        ring
    | error e =>
      rw [hv] at h
      have := ih _ _ h
      rw [this]
      simp only [List.map_cons, List.sum_cons]
      ring

theorem add_block_ok_valid (st : ChainState) (b : Block)
    (h : exceptIsOk (add_block HB verifySig st b) = true) :
    is_block_valid HB verifySig st b = true := by
  rw [add_block] at h
  by_cases hb : is_block_valid HB verifySig st b = true
  · exact hb
  · rw [if_pos hb] at h
    simp [exceptIsOk] at h

theorem is_block_valid_txs (st : ChainState) (b : Block)
    (h : is_block_valid HB verifySig st b = true) :
    validate_block_transactions verifySig st b = true := by
  rw [is_block_valid] at h
  cases hl : get_latest_block st with
  | none =>
    simp only [hl] at h
    exact absurd h (by simp)
  | some latest =>
    simp only [hl] at h
    by_cases h1 : b.index ≠ latest.index + 1
    · rw [if_pos h1] at h; exact absurd h (by simp)
    · rw [if_neg h1] at h
      by_cases h2 : b.previous_hash ≠ latest.hash
      · rw [if_pos h2] at h; exact absurd h (by simp)
      · rw [if_neg h2] at h
        by_cases h3 : b.hash ≠ compute_hash HB b
        · rw [if_pos h3] at h; exact absurd h (by simp)
        · rw [if_neg h3] at h
          by_cases h4 : is_valid_proof b 4
          · rwa [if_neg (not_not_intro h4)] at h
          · rw [if_pos h4] at h; exact absurd h (by simp)

/-- C7: a block at positive index is accepted only when its first
transaction is a coinbase with no inputs and exactly one output, that
output pays the block reward plus the summed fees of the other
transactions up to the 1e-5 tolerance, and the output address is the
miner address of the block. -/
theorem kaidos_c7_coinbase_rule (HB : BlockHashData → String)
    (verifySig : TxInput → String → Bool) (st : ChainState) (b : Block)
    (h : exceptIsOk (add_block HB verifySig st b) = true) (hn : 0 < b.index) :
    ∃ cb rest o, b.transactions = cb :: rest ∧ cb.coinbase = true ∧ cb.inputs = []
      ∧ cb.outputs = [o]
      ∧ |o.amount - (calculate_block_reward b.index
          + (rest.map (calculate_transaction_fee st)).sum)| ≤ 1 / 100000
      ∧ b.miner_address = some o.address := by
  have hvt := is_block_valid_txs HB verifySig st b (add_block_ok_valid HB verifySig st b h)
  rw [validate_block_transactions, if_neg (by omega : ¬ b.index = 0)] at hvt
  cases htx : b.transactions with
  | nil =>
    simp only [htx] at hvt
    exact absurd hvt (by simp)
  | cons cb rest =>
    simp only [htx] at hvt
    by_cases hcb : cb.coinbase
    · rw [if_neg (not_not_intro hcb)] at hvt
      by_cases hin : cb.inputs.length > 0
      · rw [if_pos hin] at hvt; exact absurd hvt (by simp)
      · rw [if_neg hin] at hvt
        have hinz : cb.inputs = [] := by
          cases hi : cb.inputs with
          | nil => rfl
          | cons x xs => rw [hi] at hin; exact absurd (by simp) hin
        cases hloop : validateTxsLoop verifySig st rest 0 with
        | none =>
          simp only [hloop] at hvt
          exact absurd hvt (by simp)
        | some fees =>
          simp only [hloop] at hvt
          have hfees : fees = (rest.map (calculate_transaction_fee st)).sum := by
            have := validateTxsLoop_fees verifySig st rest 0 fees hloop
            simpa using this
          cases hout : cb.outputs with
          | nil =>
            simp only [hout] at hvt
            exact absurd hvt (by simp)
          | cons o os =>
            cases os with
            | cons o2 os2 =>
              simp only [hout] at hvt
              exact absurd hvt (by simp)
            | nil =>
              simp only [hout] at hvt
              by_cases htol :
                  |o.amount - (calculate_block_reward b.index + fees)| > 1 / 100000
              · rw [if_pos htol] at hvt; exact absurd hvt (by simp)
              · rw [if_neg htol] at hvt
                refine ⟨cb, rest, o, rfl, hcb, hinz, hout, ?_, ?_⟩
                · rw [← hfees]
                  exact le_of_not_lt htol
                · have := eq_of_beq hvt
                  exact this
    · rw [if_pos hcb] at hvt
      exact absurd hvt (by simp)

end BlockProofs

/-- A concrete executable stand-in for the block-header hash: four zeros
followed by the block index, so that every mock block meets difficulty 4
and blocks at different indices differ. -/
def mockHB : BlockHashData → String := fun d => "0000" ++ Nat.repr d.index

/-- The 64-zero string used for the genesis link and the empty root. -/
def zeros64 : String := String.mk (List.replicate 64 '0')

/-- A concrete genesis block consistent with `mockHB`. -/
def mockGenesis : Block :=
  { index := 0, transactions := [], previous_hash := zeros64, timestamp := 0,
    nonce := 0, hash := "00000", miner_address := none, merkle_root := zeros64 }

/-- A coinbase paying 50 to miner M, as the only transaction of the C7
block. -/
def c7Coinbase : Tx :=
  { txid := "cb7", inputs := [], outputs := [{ address := "M", amount := 50 }],
    coinbase := true }

/-- The C7 block: index 1 on top of the mock genesis, coinbase only. -/
def c7Block : Block :=
  { index := 1, transactions := [c7Coinbase], previous_hash := "00000",
    timestamp := 1, nonce := 0, hash := "00001", miner_address := some "M",
    merkle_root := "mr7" }

/-- The C7 state: the mock genesis only, empty UTXO set and mempool. -/
def c7State : ChainState := { blocks := [mockGenesis], utxos := [], mempool := [] }

/-- C7 witness: the concrete coinbase-only block at index 1 is accepted,
and the coinbase rule theorem instantiates on it. -/
theorem kaidos_c7_witness :
    exceptIsOk (add_block mockHB mockSig c7State c7Block) = true
  ∧ (∃ cb rest o, c7Block.transactions = cb :: rest ∧ cb.coinbase = true
      ∧ cb.inputs = [] ∧ cb.outputs = [o]
      ∧ |o.amount - (calculate_block_reward c7Block.index
          + (rest.map (calculate_transaction_fee c7State)).sum)| ≤ 1 / 100000
      ∧ c7Block.miner_address = some o.address) := by
  have h : exceptIsOk (add_block mockHB mockSig c7State c7Block) = true := by
    norm_num [add_block, is_block_valid, get_latest_block, compute_hash, mockHB,
      is_valid_proof, startsWithZerosN, validate_block_transactions, validateTxsLoop,
      calculate_block_reward, c7State, c7Block, c7Coinbase, mockGenesis, exceptIsOk,
      List.insertionSort, List.orderedInsert]
    decide
  exact ⟨h, kaidos_c7_coinbase_rule mockHB mockSig c7State c7Block h (by norm_num [c7Block])⟩

/-! ## Lemmas on the fork resolver (C3, C6) -/

section ResolverProofs

theorem select_fold_aux :
    ∀ (l : List (List Block)) (a : Option (List Block)) (n : Nat) (c : List Block),
    (l.foldl
      (fun acc c =>
        if acc.2 < c.length ∧ validate_external_chain c = true then (some c, c.length)
        else acc)
      (a, n)).1 = some c →
    a = some c ∨ (c ∈ l ∧ validate_external_chain c = true ∧ n < c.length) := by
  intro l
  induction l with
  | nil =>
    intro a n c h
    simp only [List.foldl_nil] at h
    exact Or.inl h
  | cons hd tl ih =>
    intro a n c h
    rw [List.foldl_cons] at h
    by_cases hc : n < hd.length ∧ validate_external_chain hd = true
    · rw [if_pos hc] at h
      rcases ih _ _ _ h with h1 | h2
      · injection h1 with h1
        subst h1
        exact Or.inr ⟨List.mem_cons_self _ _, hc.2, hc.1⟩
      · exact Or.inr ⟨List.mem_cons_of_mem _ h2.1, h2.2.1, lt_trans hc.1 h2.2.2⟩
    · rw [if_neg hc] at h
      rcases ih _ _ _ h with h1 | h2
      · exact Or.inl h1
      · exact Or.inr ⟨List.mem_cons_of_mem _ h2.1, h2.2.1, h2.2.2⟩

theorem select_best_chain_some (chains : List (List Block)) (curLen : Nat)
    (c : List Block) (h : select_best_chain chains curLen = some c) :
    c ∈ chains ∧ validate_external_chain c = true ∧ curLen < c.length := by
  rw [select_best_chain] at h
  rcases select_fold_aux chains none curLen c h with h1 | h2
  · exact absurd h1 (by simp)
  · exact h2

theorem select_fold_const :
    ∀ (l : List (List Block)) (a : Option (List Block)) (n : Nat),
    (∀ c ∈ l, c.length ≤ n) →
    l.foldl
      (fun acc c =>
        if acc.2 < c.length ∧ validate_external_chain c = true then (some c, c.length)
        else acc)
      (a, n) = (a, n) := by
  intro l
  induction l with
  | nil => intro a n _; rfl
  | cons hd tl ih =>
    intro a n hb
    rw [List.foldl_cons]
    rw [if_neg]
    · exact ih a n (fun c hc => hb c (List.mem_cons_of_mem _ hc))
    · intro hcon
      exact absurd hcon.1 (not_lt.mpr (hb hd (List.mem_cons_self _ _)))

theorem select_best_chain_none (chains : List (List Block)) (curLen : Nat)
    (hb : ∀ c ∈ chains, c.length ≤ curLen) :
    select_best_chain chains curLen = none := by
  rw [select_best_chain, select_fold_const chains none curLen hb]

/-- C3 (amended): the fork resolver replaces the local chain only when
some candidate is strictly longer than the local chain and passes
external validation (first index 0, contiguity, linkage, difficulty-4
proof-of-work on the stored hashes; the hash recomputation check of the
source compares the stored hash with itself and never fails); whenever
every candidate has length at most the local length — equal-length ties
included — it returns false and leaves the state unchanged. -/
theorem kaidos_c3_resolve_only_longer (st : ChainState) (chains : List (List Block)) :
    ((resolve_conflicts st chains).1 = true →
      ∃ c ∈ chains, validate_external_chain c = true ∧ st.blocks.length < c.length)
  ∧ ((∀ c ∈ chains, c.length ≤ st.blocks.length) →
      resolve_conflicts st chains = (false, st)) := by
  constructor
  · intro h
    rw [resolve_conflicts] at h
    cases hsel : select_best_chain chains
        (st.blocks.insertionSort (fun a b => a.index ≤ b.index)).length with
    | none => rw [hsel] at h; simp at h
    | some best =>
      have hs := select_best_chain_some _ _ _ hsel
      rw [List.length_insertionSort] at hs
      exact ⟨best, hs.1, hs.2.1, hs.2.2⟩
  · intro hb
    rw [resolve_conflicts]
    rw [select_best_chain_none chains _
      (by rw [List.length_insertionSort]; exact hb)]

end ResolverProofs

/-- A genesis-like block whose hash carries no leading zeros (the genesis
hash is whatever SHA-256 yields; no proof-of-work constrains it). -/
def c3Genesis : Block :=
  { index := 0, transactions := [], previous_hash := zeros64, timestamp := 0,
    nonce := 0, hash := "g3", miner_address := none, merkle_root := zeros64 }

/-- A candidate block whose stored hash meets difficulty 4 but is not the
recomputation of its header fields under the mock header hash. -/
def c3Bad : Block :=
  { index := 1, transactions := [], previous_hash := "g3", timestamp := 1,
    nonce := 0, hash := "0000X", miner_address := none, merkle_root := zeros64 }

/-- Local state for the C3 counterexample: genesis only. -/
def c3State : ChainState := { blocks := [c3Genesis], utxos := [], mempool := [] }

/-- The candidate chain of the C3 counterexample: the shared genesis plus
the hash-mangled block. -/
def c3Cand : List Block := [c3Genesis, c3Bad]

theorem processTx_blocks (st : ChainState) (tx : Tx) :
    (processTx st tx).blocks = st.blocks := by
  rw [processTx]
  by_cases hc : tx.coinbase
  · simp only [if_pos hc]
  · simp only [if_neg hc]

theorem foldl_processTx_blocks (l : List Tx) :
    ∀ (st : ChainState), (l.foldl processTx st).blocks = st.blocks := by
  induction l with
  | nil => intro st; rfl
  | cons tx rest ih =>
    intro st
    rw [List.foldl_cons, ih, processTx_blocks]

theorem process_block_transactions_blocks (b : Block) (st : ChainState) :
    (process_block_transactions st b).blocks = st.blocks := by
  rw [process_block_transactions, foldl_processTx_blocks]

theorem foldl_process_blocks (l : List Block) :
    ∀ (st : ChainState), (l.foldl process_block_transactions st).blocks = st.blocks := by
  induction l with
  | nil => intro st; rfl
  | cons b rest ih =>
    intro st
    rw [List.foldl_cons, ih, process_block_transactions_blocks]

theorem rebuild_blocks (st : ChainState) (h : Nat) :
    (rebuild_utxo_set_from_height st h).blocks = st.blocks := by
  rw [rebuild_utxo_set_from_height, foldl_process_blocks]

theorem c3_resolve_eval : resolve_conflicts c3State [c3Cand]
    = (true, rebuild_utxo_set_from_height
        { blocks := [c3Genesis, c3Bad], utxos := [], mempool := [] } 0) := by
  have hsel : select_best_chain [c3Cand]
      ((c3State.blocks.insertionSort (fun a b : Block => a.index ≤ b.index)).length)
      = some c3Cand := rfl
  have hch : common_height
      (c3State.blocks.insertionSort (fun a b : Block => a.index ≤ b.index)) c3Cand
      = 0 := rfl
  have hwork : validate_chain_work c3Cand
      (c3State.blocks.insertionSort (fun a b : Block => a.index ≤ b.index)) = true := by
    have h1 : chain_work c3Cand = 17 := rfl
    have h2 : chain_work
        (c3State.blocks.insertionSort (fun a b : Block => a.index ≤ b.index)) = 1 := rfl
    rw [validate_chain_work, h1, h2]
    norm_num
  rw [resolve_conflicts]
  simp only [hsel, hch, hwork]
  norm_num
  rfl

/-- C3 counterexample: the resolver adopts a strictly longer candidate
containing a block whose stored hash is not the recomputation of its
fields — external validation does not actually recompute hashes, contrary
to what the claim describes. -/
theorem kaidos_c3_counterexample :
    (resolve_conflicts c3State [c3Cand]).1 = true
  ∧ c3Bad ∈ (resolve_conflicts c3State [c3Cand]).2.blocks
  ∧ c3Bad.hash ≠ compute_hash mockHB c3Bad := by
  rw [c3_resolve_eval]
  refine ⟨rfl, ?_, by decide⟩
  rw [rebuild_blocks]
  simp

/-- C3 witness: with a single equal-length candidate the resolver reports
no replacement and leaves the state untouched. -/
theorem kaidos_c3_witness :
    resolve_conflicts c3State [[c3Genesis]] = (false, c3State) :=
  (kaidos_c3_resolve_only_longer c3State [[c3Genesis]]).2
    (by intro c hc; simp at hc; subst hc; simp [c3State])

/-! ## The more-work rule (C6) -/

theorem chain_work_sorted (l : List Block) (r : Block → Block → Prop) [DecidableRel r] :
    chain_work (l.insertionSort r) = chain_work l := by
  rw [chain_work, chain_work]
  exact List.Perm.sum_eq ((List.perm_insertionSort r l).map _)

/-- C6: when the resolver has selected a strictly longer valid candidate,
the computed common-ancestor height is 0, and the local chain holds
non-genesis blocks, the candidate is adopted only if its cumulative work
(sum over blocks of 2 to the leading-zero count of the hash) strictly
exceeds 1.1 times the local cumulative work — in particular it exceeds
the local work by at least 10 percent; if the work comparison fails, the
resolver returns false and the state is unchanged. -/
theorem kaidos_c6_work_threshold (st : ChainState) (chains : List (List Block))
    (best : List Block)
    (hsel : select_best_chain chains
      ((st.blocks.insertionSort (fun a b => a.index ≤ b.index)).length) = some best)
    (hh : common_height
      (st.blocks.insertionSort (fun a b => a.index ≤ b.index)) best = 0)
    (hlen : 1 < st.blocks.length) :
    ((resolve_conflicts st chains).1 = true →
      (chain_work st.blocks : ℚ) * (11 / 10) < chain_work best)
  ∧ ((chain_work best : ℚ) < (chain_work st.blocks : ℚ) * (11 / 10) →
      resolve_conflicts st chains = (false, st)) := by
  have hcur : chain_work (st.blocks.insertionSort (fun a b => a.index ≤ b.index))
      = chain_work st.blocks := chain_work_sorted st.blocks _
  have hpos : 0 < (st.blocks.insertionSort (fun a b => a.index ≤ b.index)).length := by
    rw [List.length_insertionSort]
    omega
  constructor
  · intro h
    rw [resolve_conflicts] at h
    simp only [hsel, hh] at h
    by_cases hw : validate_chain_work best
        (st.blocks.insertionSort (fun a b => a.index ≤ b.index)) = false
    · rw [if_pos ⟨trivial, hpos, hw⟩] at h
      simp at h
    · have hw' : validate_chain_work best
          (st.blocks.insertionSort (fun a b => a.index ≤ b.index)) = true := by
        cases hb : validate_chain_work best
            (st.blocks.insertionSort (fun a b => a.index ≤ b.index))
        · exact absurd hb hw
        · rfl
      rw [validate_chain_work] at hw'
      have := of_decide_eq_true hw'
      rw [hcur] at this
      exact this
  · intro hlt
    have hw : validate_chain_work best
        (st.blocks.insertionSort (fun a b => a.index ≤ b.index)) = false := by
      rw [validate_chain_work]
      apply decide_eq_false
      rw [hcur]
      exact not_lt.mpr (le_of_lt hlt)
    rw [resolve_conflicts]
    simp only [hsel, hh]
    rw [if_pos ⟨trivial, hpos, hw⟩]

/-- The C6 local genesis: its hash happens to carry twelve leading zeros,
giving the short local chain a large cumulative work. -/
def c6Genesis : Block :=
  { index := 0, transactions := [], previous_hash := zeros64, timestamp := 0,
    nonce := 0, hash := "000000000000", miner_address := none, merkle_root := zeros64 }

/-- The C6 local block at index 1, difficulty-4 hash. -/
def c6B1 : Block :=
  { index := 1, transactions := [], previous_hash := "000000000000", timestamp := 1,
    nonce := 0, hash := "0000b", miner_address := none, merkle_root := zeros64 }

/-- The C6 local state: two blocks with cumulative work 4112. -/
def c6State : ChainState := { blocks := [c6Genesis, c6B1], utxos := [], mempool := [] }

/-- The fully divergent C6 candidate genesis (no leading zeros). -/
def c6G : Block :=
  { index := 0, transactions := [], previous_hash := zeros64, timestamp := 0,
    nonce := 0, hash := "c6g0", miner_address := none, merkle_root := zeros64 }

/-- Candidate block 1 of the C6 chain. -/
def c6C1 : Block :=
  { index := 1, transactions := [], previous_hash := "c6g0", timestamp := 1,
    nonce := 0, hash := "0000p", miner_address := none, merkle_root := zeros64 }

/-- Candidate block 2 of the C6 chain. -/
def c6C2 : Block :=
  { index := 2, transactions := [], previous_hash := "0000p", timestamp := 2,
    nonce := 0, hash := "0000q", miner_address := none, merkle_root := zeros64 }

/-- The strictly longer but low-work C6 candidate (work 33). -/
def c6Cand : List Block := [c6G, c6C1, c6C2]

/-- C6 witness: the longer, externally valid, fully divergent candidate
with work 33 against local work 4112 is refused and the state kept. -/
theorem kaidos_c6_witness :
    resolve_conflicts c6State [c6Cand] = (false, c6State) := by
  have h := (kaidos_c6_work_threshold c6State [c6Cand] c6Cand rfl rfl
    (by norm_num [c6State])).2
  apply h
  have h1 : chain_work c6Cand = 33 := rfl
  have h2 : chain_work c6State.blocks = 4112 := rfl
  rw [h1, h2]
  norm_num

/-! ## Swallowed transaction validation in block acceptance (C1) -/

/-- A coinbase paying 50 to miner M for the C1 block. -/
def c1Coinbase : Tx :=
  { txid := "cb1", inputs := [], outputs := [{ address := "M", amount := 50 }],
    coinbase := true }

/-- A transaction spending a UTXO that does not exist: the section-4.4
validator raises on it. -/
def c1BadTx : Tx :=
  { txid := "bad1", inputs := [{ txid := "nope", vout := 0, signature := "s" }],
    outputs := [{ address := "B", amount := 30 }], coinbase := false }

/-- The C1 block: a well-formed coinbase followed by the invalid
transaction. -/
def c1Block : Block :=
  { index := 1, transactions := [c1Coinbase, c1BadTx], previous_hash := "00000",
    timestamp := 1, nonce := 0, hash := "00001", miner_address := some "M",
    merkle_root := "mr1" }

/-- The C1 state: mock genesis, empty UTXO set (so the bad input has no
UTXO) and empty mempool. -/
def c1State : ChainState := { blocks := [mockGenesis], utxos := [], mempool := [] }

/-- C1 evidence: the block containing a transaction that fails section-4.4
validation (missing UTXO) is nevertheless accepted by `add_block`,
because the per-transaction `try` swallows the validation exception. -/
theorem kaidos_c1_invalid_tx_block_accepted :
    exceptIsOk (add_block mockHB mockSig c1State c1Block) = true
  ∧ c1BadTx ∈ c1Block.transactions
  ∧ c1BadTx.coinbase = false
  ∧ validate_transaction mockSig c1State c1BadTx = .error "UTXO not found" := by
  refine ⟨?_, by simp [c1Block], rfl, rfl⟩
  norm_num [add_block, is_block_valid, get_latest_block, compute_hash, mockHB,
    is_valid_proof, startsWithZerosN, validate_block_transactions, validateTxsLoop,
    validate_transaction, checkInputs, checkOutputs, get_utxo, is_utxo_spent_in_mempool,
    calculate_transaction_fee, calculate_block_reward, c1State, c1Block, c1Coinbase,
    c1BadTx, mockGenesis, mockSig, exceptIsOk, List.insertionSort, List.orderedInsert,
    List.find?]
  decide

/-! ## UTXOs of discarded blocks surviving a reorganization (C2) -/

/-- The UTXO set the spec prescribes after a chain is adopted: replay the
chain from genesis over an empty UTXO set (stated from the words of the claim,
to be compared with what the code leaves behind). -/
def spec_replay_utxos (blocks : List Block) : List Utxo :=
  (blocks.foldl process_block_transactions
    { blocks := blocks, utxos := [], mempool := [] }).utxos

/-- Coinbase of the local block that the reorganization discards. -/
def txL : Tx :=
  { txid := "txL", inputs := [], outputs := [{ address := "L", amount := 50 }],
    coinbase := true }

/-- Coinbase of the first adopted candidate block. -/
def txM : Tx :=
  { txid := "txM", inputs := [], outputs := [{ address := "MM", amount := 50 }],
    coinbase := true }

/-- Coinbase of the second adopted candidate block. -/
def txN : Tx :=
  { txid := "txN", inputs := [], outputs := [{ address := "NN", amount := 50 }],
    coinbase := true }

/-- The shared genesis of the C2 scenario. -/
def c2Genesis : Block :=
  { index := 0, transactions := [], previous_hash := zeros64, timestamp := 0,
    nonce := 0, hash := "g2", miner_address := none, merkle_root := zeros64 }

/-- The local block at index 1 whose coinbase produced the `txL` UTXO;
the reorganization discards it. -/
def c2B1 : Block :=
  { index := 1, transactions := [txL], previous_hash := "g2", timestamp := 1,
    nonce := 0, hash := "0000L", miner_address := some "L", merkle_root := zeros64 }

/-- Candidate block at index 1 (diverges from the local block). -/
def c2C1 : Block :=
  { index := 1, transactions := [txM], previous_hash := "g2", timestamp := 1,
    nonce := 0, hash := "0000m", miner_address := some "MM", merkle_root := zeros64 }

/-- Candidate block at index 2. -/
def c2C2 : Block :=
  { index := 2, transactions := [txN], previous_hash := "0000m", timestamp := 2,
    nonce := 0, hash := "0000n", miner_address := some "NN", merkle_root := zeros64 }

/-- The local C2 state: genesis plus the block that created `txL`, with
the UTXO set that replaying those two blocks produces. -/
def c2State : ChainState :=
  { blocks := [c2Genesis, c2B1],
    utxos := [{ txid := "txL", vout := 0, address := "L", amount := 50 }],
    mempool := [] }

/-- The longer candidate chain sharing only the genesis. -/
def c2Cand : List Block := [c2Genesis, c2C1, c2C2]

theorem c2_resolve_eval : resolve_conflicts c2State [c2Cand]
    = (true, rebuild_utxo_set_from_height
        { blocks := [c2Genesis, c2C1, c2C2],
          utxos := [{ txid := "txL", vout := 0, address := "L", amount := 50 }],
          mempool := [] } 0) := by
  have hsel : select_best_chain [c2Cand]
      ((c2State.blocks.insertionSort (fun a b : Block => a.index ≤ b.index)).length)
      = some c2Cand := rfl
  have hch : common_height
      (c2State.blocks.insertionSort (fun a b : Block => a.index ≤ b.index)) c2Cand
      = 0 := rfl
  have hwork : validate_chain_work c2Cand
      (c2State.blocks.insertionSort (fun a b : Block => a.index ≤ b.index)) = true := by
    have h1 : chain_work c2Cand = 33 := rfl
    have h2 : chain_work
        (c2State.blocks.insertionSort (fun a b : Block => a.index ≤ b.index)) = 17 := rfl
    rw [validate_chain_work, h1, h2]
    norm_num
  rw [resolve_conflicts]
  simp only [hsel, hch, hwork]
  norm_num
  rfl

/-- C2 evidence: the resolver adopts the strictly longer divergent chain,
yet the UTXO created by the discarded local block survives in the store,
while replaying the adopted chain from genesis does not produce it — the
post-reorganization UTXO set differs from the replay of the adopted
chain. -/
theorem kaidos_c2_reorg_keeps_stale_utxo :
    (resolve_conflicts c2State [c2Cand]).1 = true
  ∧ (resolve_conflicts c2State [c2Cand]).2.utxos.any
      (fun u => u.txid == "txL") = true
  ∧ (spec_replay_utxos (resolve_conflicts c2State [c2Cand]).2.blocks).any
      (fun u => u.txid == "txL") = false := by
  rw [c2_resolve_eval]
  exact ⟨rfl, by rfl, by rfl⟩

/-! ## Adaptive difficulty (C8) -/

theorem startsWithZerosI_zero (s : String) : startsWithZerosI s 0 = true := rfl

theorem currentDifficultyScan_nonneg (blocks : List Block) :
    0 ≤ currentDifficultyScan blocks := by
  rw [currentDifficultyScan]
  have haux : ∀ (l : List Block) (init : Int), 0 ≤ init →
      0 ≤ l.foldl
        (fun cd b =>
          if startsWithZerosI b.hash (cd + 1) then cd + 1
          else if ¬ startsWithZerosI b.hash cd then cd - 1
          else cd)
        init := by
    intro l
    induction l with
    | nil => intro init h; simpa using h
    | cons b rest ih =>
      intro init h
      rw [List.foldl_cons]
      apply ih
      by_cases h1 : startsWithZerosI b.hash (init + 1) = true
      · rw [if_pos h1]; omega
      · rw [if_neg h1]
        by_cases h2 : startsWithZerosI b.hash init = true
        · rw [if_neg (not_not_intro h2)]; exact h
        · rw [if_pos h2]
          have hne : init ≠ 0 := by
            intro he
            subst he
            exact h2 (startsWithZerosI_zero b.hash)
          omega
  exact haux blocks 4 (by norm_num)

/-- C8 (amended): `get_difficulty` returns 4 when the window has fewer
than 2 blocks; with at least 2 blocks it increments the scanned current
difficulty below a 300-second average and decrements with floor 1 above
1200 seconds; the result is at least 1 in the increment and decrement
branches, and at least 0 for every chain state — the floor of 1 does not
apply in the hold branch, so the claimed "at least 1 for every chain
state" fails there. -/
theorem kaidos_c8_difficulty_amended (st : ChainState) :
    ((difficulty_window st).length < 2 → get_difficulty st = 4)
  ∧ 0 ≤ get_difficulty st
  ∧ (2 ≤ (difficulty_window st).length →
      avg_block_time (difficulty_window st) < 300 → 1 ≤ get_difficulty st)
  ∧ (2 ≤ (difficulty_window st).length →
      avg_block_time (difficulty_window st) > 1200 → 1 ≤ get_difficulty st) := by
  have hs := currentDifficultyScan_nonneg (difficulty_window st)
  by_cases hlen : (difficulty_window st).length < 2
  · rw [get_difficulty, if_pos hlen]
    refine ⟨fun _ => rfl, by norm_num, ?_, ?_⟩
    · intro h2; omega
    · intro h2; omega
  · rw [get_difficulty, if_neg hlen]
    refine ⟨fun hc => absurd hc hlen, ?_, ?_, ?_⟩
    · by_cases ha : avg_block_time (difficulty_window st) < 300
      · rw [if_pos ha]; omega
      · rw [if_neg ha]
        by_cases hb : avg_block_time (difficulty_window st) > 1200
        · rw [if_pos hb]; omega
        · rw [if_neg hb]; exact hs
    · intro _ ha
      rw [if_pos ha]
      omega
    · intro _ hb
      have ha : ¬ avg_block_time (difficulty_window st) < 300 := by
        intro hc
        have : (300 : ℚ) < 1200 := by norm_num
        exact absurd hb (by push_neg; linarith)
      rw [if_neg ha, if_pos hb]
      omega

/-- Blocks of the C8 counterexample: four blocks with hashes carrying no
leading zeros, spaced exactly 600 seconds apart (hold branch). -/
def c8B0 : Block :=
  { index := 0, transactions := [], previous_hash := zeros64, timestamp := 0,
    nonce := 0, hash := "a0", miner_address := none, merkle_root := zeros64 }

/-- Second C8 block. -/
def c8B1 : Block :=
  { index := 1, transactions := [], previous_hash := "a0", timestamp := 600,
    nonce := 0, hash := "a1", miner_address := none, merkle_root := zeros64 }

/-- Third C8 block. -/
def c8B2 : Block :=
  { index := 2, transactions := [], previous_hash := "a1", timestamp := 1200,
    nonce := 0, hash := "a2", miner_address := none, merkle_root := zeros64 }

/-- Fourth C8 block. -/
def c8B3 : Block :=
  { index := 3, transactions := [], previous_hash := "a2", timestamp := 1800,
    nonce := 0, hash := "a3", miner_address := none, merkle_root := zeros64 }

/-- The C8 counterexample state. -/
def c8State : ChainState :=
  { blocks := [c8B0, c8B1, c8B2, c8B3], utxos := [], mempool := [] }

/-- C8 counterexample: on this chain state the hold branch fires and the
returned difficulty is 0, refuting "for every chain state the returned
difficulty is at least 1". -/
theorem kaidos_c8_counterexample :
    get_difficulty c8State = 0 ∧ ¬ (1 ≤ get_difficulty c8State) := by
  have hw : difficulty_window c8State = [c8B0, c8B1, c8B2, c8B3] := rfl
  have havg : avg_block_time (difficulty_window c8State) = 600 := by
    have hts : ((difficulty_window c8State).map (fun b => b.timestamp)).insertionSort
        (fun a b => a ≤ b) = [0, 600, 1200, 1800] := rfl
    rw [avg_block_time, hts]
    norm_num [List.zip, List.zipWith, List.tail]
  have hscan : currentDifficultyScan (difficulty_window c8State) = 0 := rfl
  have h : get_difficulty c8State = 0 := by
    rw [get_difficulty, havg, hscan, hw]
    norm_num
  exact ⟨h, by omega⟩

/-- Two slow C8 blocks (2000-second gap) for the decrement branch. -/
def c8Slow0 : Block :=
  { index := 0, transactions := [], previous_hash := zeros64, timestamp := 0,
    nonce := 0, hash := "s0", miner_address := none, merkle_root := zeros64 }

/-- Second slow block. -/
def c8Slow1 : Block :=
  { index := 1, transactions := [], previous_hash := "s0", timestamp := 2000,
    nonce := 0, hash := "s1", miner_address := none, merkle_root := zeros64 }

/-- The slow two-block chain state. -/
def c8SlowState : ChainState :=
  { blocks := [c8Slow0, c8Slow1], utxos := [], mempool := [] }

/-- C8 witness: the amended theorem applied to the empty chain (default
4) and to a concrete slow chain (decrement branch, floor at least 1). -/
theorem kaidos_c8_witness :
    get_difficulty c9State = 4 ∧ 1 ≤ get_difficulty c8SlowState := by
  constructor
  · exact (kaidos_c8_difficulty_amended c9State).1 (by decide)
  · apply (kaidos_c8_difficulty_amended c8SlowState).2.2.2 (by decide)
    have hts : ((difficulty_window c8SlowState).map (fun b => b.timestamp)).insertionSort
        (fun a b => a ≤ b) = [0, 2000] := rfl
    rw [avg_block_time, hts]
    norm_num [List.zip, List.zipWith, List.tail]

/-! ## Pending snapshot and the mining cap (C10) -/

instance : IsTotal Tx (fun a b => a.timestamp ≤ b.timestamp) :=
  ⟨fun a b => le_total a.timestamp b.timestamp⟩

instance : IsTrans Tx (fun a b => a.timestamp ≤ b.timestamp) :=
  ⟨fun _ _ _ h1 h2 => le_trans h1 h2⟩

/-- C10: the pending snapshot consists exactly of the mempool entries with
status pending, sorted by ascending timestamp and truncated to the limit
of 100 (complete whenever at most 100 entries are pending); the assembled
block is the coinbase followed by that snapshot, hence at most 101
transactions. -/
theorem kaidos_c10_pending_cap (st : ChainState) (coinbase : Tx) :
    (∀ tx ∈ get_pending_transactions st 100, tx.status = "pending" ∧ tx ∈ st.mempool)
  ∧ List.Sorted (fun a b : Tx => a.timestamp ≤ b.timestamp)
      (get_pending_transactions st 100)
  ∧ (get_pending_transactions st 100).length ≤ 100
  ∧ ((st.mempool.filter (fun tx => tx.status == "pending")).length ≤ 100 →
      ∀ tx ∈ st.mempool, tx.status = "pending" →
        tx ∈ get_pending_transactions st 100)
  ∧ mine_block_transactions st coinbase = coinbase :: get_pending_transactions st 100
  ∧ (mine_block_transactions st coinbase).length
      ≤ 100 + 1 := by
  refine ⟨?_, ?_, ?_, ?_, rfl, ?_⟩
  · intro tx htx
    rw [get_pending_transactions] at htx
    have h1 : tx ∈ (st.mempool.filter (fun tx => tx.status == "pending")).insertionSort
        (fun a b => a.timestamp ≤ b.timestamp) := List.mem_of_mem_take htx
    have h2 : tx ∈ st.mempool.filter (fun tx => tx.status == "pending") :=
      (List.Perm.mem_iff (List.perm_insertionSort _ _)).mp h1
    rcases List.mem_filter.mp h2 with ⟨hm, hp⟩
    exact ⟨eq_of_beq hp, hm⟩
  · rw [get_pending_transactions]
    exact List.Pairwise.sublist (List.take_sublist _ _) (List.sorted_insertionSort _ _)
  · rw [get_pending_transactions]
    exact List.length_take_le _ _
  · intro hlen tx htx hst
    rw [get_pending_transactions]
    have hf : tx ∈ st.mempool.filter (fun tx => tx.status == "pending") :=
      List.mem_filter.mpr ⟨htx, beq_iff_eq.mpr hst⟩
    have hs : tx ∈ (st.mempool.filter (fun tx => tx.status == "pending")).insertionSort
        (fun a b => a.timestamp ≤ b.timestamp) :=
      (List.Perm.mem_iff (List.perm_insertionSort _ _)).mpr hf
    rw [List.take_of_length_le (by rw [List.length_insertionSort]; exact hlen)]
    exact hs
  · rw [mine_block_transactions]
    have := List.length_take_le 100
      ((st.mempool.filter (fun tx => tx.status == "pending")).insertionSort
        (fun a b => a.timestamp ≤ b.timestamp))
    rw [get_pending_transactions]
    simp only [List.length_cons]
    omega

/-- A pending mempool entry with timestamp 5. -/
def c10Tx1 : Tx :=
  { txid := "p1", inputs := [], outputs := [], timestamp := 5, status := "pending" }

/-- A pending mempool entry with timestamp 3 (older than `c10Tx1`). -/
def c10Tx2 : Tx :=
  { txid := "p2", inputs := [], outputs := [], timestamp := 3, status := "pending" }

/-- A confirmed (non-pending) mempool entry. -/
def c10Tx3 : Tx :=
  { txid := "x3", inputs := [], outputs := [], timestamp := 1, status := "confirmed" }

/-- The C10 state: three mempool documents, two of them pending. -/
def c10State : ChainState :=
  { blocks := [], utxos := [], mempool := [c10Tx1, c10Tx2, c10Tx3] }

/-- The coinbase the mining endpoint prepends in the C10 evaluation. -/
def c10Coinbase : Tx :=
  { txid := "cbX", inputs := [], outputs := [], coinbase := true }

/-- C10 witness: the pending-snapshot theorem applied to a concrete
three-entry mempool. -/
theorem kaidos_c10_witness :
    c10Tx2 ∈ get_pending_transactions c10State 100
  ∧ (get_pending_transactions c10State 100).length ≤ 100
  ∧ mine_block_transactions c10State c10Coinbase
      = c10Coinbase :: get_pending_transactions c10State 100 := by
  have h := kaidos_c10_pending_cap c10State c10Coinbase
  exact ⟨h.2.2.2.1 (by decide) c10Tx2 (by simp [c10State]) rfl,
    h.2.2.1, h.2.2.2.2.1⟩

end Kaidos
